import Mathlib

/-!
Shallow embedding of the elm-protobuf descriptor-to-model compiler
(protoc plugin, package main, and the elm helper package) in Lean 4,
together with theorems settling the specification claims.

Strings are modelled by the Lean String type; all string manipulation is
implemented over the underlying character list so that every definition
evaluates inside the kernel.  Go functions that can panic are embedded as
Option-returning functions, where a none result marks the panic.
-/

namespace ElmProtobuf

/-! ## Character-list string primitives

These mirror the Go standard-library string functions used by the source
(strings.Split with a one-character separator, strings.Join,
strings.Replace, strings.TrimSuffix, strings.ToLower, strings.ToUpper of
a one-character slice). -/

/-- strings.Split with a one-character separator, on character lists.
Matches Go: splitting the empty string yields one empty part. -/
def splitOnChar (sep : Char) : List Char → List (List Char)
  | [] => [[]]
  | d :: ds =>
    let r := splitOnChar sep ds
    if d == sep then [] :: r
    else
      match r with
      | [] => [[d]]
      | g :: gs => (d :: g) :: gs

/-- strings.Join: interleave a separator between the parts. -/
def joinSep (sep : String) : List String → String
  | [] => ""
  | [s] => s
  | s :: rest => s ++ sep ++ joinSep sep rest

/-- strings.Replace(s, old, new, -1) for a one-character pattern. -/
def replaceChar (target : Char) (rep : List Char) : List Char → List Char
  | [] => []
  | c :: cs => if c == target then rep ++ replaceChar target rep cs
               else c :: replaceChar target rep cs

/-- Uppercase the first character of a character list. -/
def upperFirstChars : List Char → List Char
  | [] => []
  | c :: cs => c.toUpper :: cs

/-- Lowercase the first character of a character list. -/
def lowerFirstChars : List Char → List Char
  | [] => []
  | c :: cs => c.toLower :: cs

/-- Modelled from the spec: stringextras.FirstUpper (pkg/stringextras is
not under src/) — "guarantee the result starts with the casing required
for a type (upper)": uppercase the first character, keep the rest. -/
def FirstUpper (s : String) : String := String.mk (upperFirstChars s.data)

/-- Modelled from the spec: stringextras.FirstLower (pkg/stringextras is
not under src/) — lowercase the first character, keep the rest. -/
def FirstLower (s : String) : String := String.mk (lowerFirstChars s.data)

/-- Modelled from the spec: stringextras.CamelCase (pkg/stringextras is
not under src/) — "convert to the target casing convention": split on
underscores, capitalize each segment, concatenate. -/
def CamelCase (s : String) : String :=
  String.mk (((splitOnChar '_' s.data).map upperFirstChars).flatten)

/-- Modelled from the spec: stringextras.LowerCamelCase (pkg/stringextras
is not under src/) — "simple camelcase variable name with first letter
lower". -/
def LowerCamelCase (s : String) : String := FirstLower (CamelCase s)

/-- strings.ToLower, restricted to character-wise lowering. -/
def strToLower (s : String) : String := String.mk (s.data.map Char.toLower)

/-- strings.TrimSuffix: drop the suffix when present, else return the
string unchanged. -/
def trimSuffix (s suf : String) : String :=
  let n := s.data.length
  let m := suf.data.length
  if m ≤ n && s.data.drop (n - m) == suf.data then String.mk (s.data.take (n - m)) else s

/-! ## Descriptor data model (google.golang.org/protobuf/types/descriptorpb)

Only the descriptor attributes the source reads are modelled.  Getter
behaviour of the Go generated code (a nil message or unset field reads as
the zero value) is reproduced by storing plain values where the source
never distinguishes unset from zero, and Option where it checks nil
(OneofIndex, the options messages and their Deprecated field). -/

inductive FieldDescriptorProto_Type where
  | TYPE_DOUBLE | TYPE_FLOAT | TYPE_INT64 | TYPE_UINT64 | TYPE_INT32
  | TYPE_FIXED64 | TYPE_FIXED32 | TYPE_BOOL | TYPE_STRING | TYPE_GROUP
  | TYPE_MESSAGE | TYPE_BYTES | TYPE_UINT32 | TYPE_ENUM | TYPE_SFIXED32
  | TYPE_SFIXED64 | TYPE_SINT32 | TYPE_SINT64
deriving DecidableEq

inductive FieldDescriptorProto_Label where
  | LABEL_OPTIONAL | LABEL_REQUIRED | LABEL_REPEATED
deriving DecidableEq

structure FieldOptions where
  Deprecated : Option Bool
deriving DecidableEq

structure MessageOptions where
  MapEntry : Option Bool
  Deprecated : Option Bool
deriving DecidableEq

structure EnumOptions where
  Deprecated : Option Bool
deriving DecidableEq

structure EnumValueOptions where
  Deprecated : Option Bool
deriving DecidableEq

structure FieldDescriptorProto where
  Name : String
  Number : Int
  Label : FieldDescriptorProto_Label
  Type' : FieldDescriptorProto_Type
  TypeName : String
  DefaultValue : String
  OneofIndex : Option Int
  Options : Option FieldOptions
deriving DecidableEq

structure OneofDescriptorProto where
  Name : String
deriving DecidableEq

structure EnumValueDescriptorProto where
  Name : String
  Number : Int
  Options : Option EnumValueOptions
deriving DecidableEq

structure EnumDescriptorProto where
  Name : String
  Value : List EnumValueDescriptorProto
  Options : Option EnumOptions
deriving DecidableEq

inductive DescriptorProto where
  | mk (Name : String) (Field : List FieldDescriptorProto)
       (NestedType : List DescriptorProto) (EnumType : List EnumDescriptorProto)
       (OneofDecl : List OneofDescriptorProto) (Options : Option MessageOptions)

def DescriptorProto.name : DescriptorProto → String
  | .mk n _ _ _ _ _ => n

def DescriptorProto.field : DescriptorProto → List FieldDescriptorProto
  | .mk _ f _ _ _ _ => f

def DescriptorProto.nestedType : DescriptorProto → List DescriptorProto
  | .mk _ _ nt _ _ _ => nt

def DescriptorProto.enumType : DescriptorProto → List EnumDescriptorProto
  | .mk _ _ _ et _ _ => et

def DescriptorProto.oneofDecl : DescriptorProto → List OneofDescriptorProto
  | .mk _ _ _ _ od _ => od

def DescriptorProto.options : DescriptorProto → Option MessageOptions
  | .mk _ _ _ _ _ o => o

/-- GetOptions().GetMapEntry() on a possibly-nil options message. -/
def getMapEntry (o : Option MessageOptions) : Bool :=
  match o with
  | some v => v.MapEntry.getD false
  | none => false

/-! ## pkg/elm: identifier and type name resolution -/

/-- elm.Type — basic Elm type, custom type, or type alias (a string in the
source; the Go name Type is a Lean keyword, hence ElmType). -/
abbrev ElmType := String

abbrev VariableName := String
abbrev VariantName := String
abbrev FieldDecoder := String
abbrev FieldEncoder := String
abbrev ProtobufFieldNumber := Int

structure WellKnownType where
  Type' : ElmType
  Encoder : VariableName
  Decoder : VariableName
deriving DecidableEq

def intType : ElmType := "Int"
def floatType : ElmType := "Float"
def stringType : ElmType := "String"
def bytesType : ElmType := "Bytes"
def boolType : ElmType := "Bool"

/-- WellKnownTypeMap — map of Google well known type PB identifier to
encoder/decoder info (an association list here; the Go map has distinct
keys so lookup agrees). -/
def WellKnownTypeMap : List (String × WellKnownType) :=
  [ (".google.protobuf.Timestamp", ⟨"Timestamp", "timestampEncoder", "timestampDecoder"⟩),
    (".google.protobuf.Int32Value", ⟨intType, "intValueEncoder", "intValueDecoder"⟩),
    (".google.protobuf.Int64Value", ⟨intType, "numericStringEncoder", "intValueDecoder"⟩),
    (".google.protobuf.UInt32Value", ⟨intType, "intValueEncoder", "intValueDecoder"⟩),
    (".google.protobuf.UInt64Value", ⟨intType, "numericStringEncoder", "intValueDecoder"⟩),
    (".google.protobuf.DoubleValue", ⟨floatType, "floatValueEncoder", "floatValueDecoder"⟩),
    (".google.protobuf.FloatValue", ⟨floatType, "floatValueEncoder", "floatValueDecoder"⟩),
    (".google.protobuf.StringValue", ⟨stringType, "stringValueEncoder", "stringValueDecoder"⟩),
    (".google.protobuf.BytesValue", ⟨bytesType, "bytesValueEncoder", "bytesValueDecoder"⟩),
    (".google.protobuf.BoolValue", ⟨boolType, "boolValueEncoder", "boolValueDecoder"⟩) ]

def reservedKeywords : List String :=
  ["module", "exposing", "import", "type", "let", "in", "if",
   "then", "else", "where", "case", "of", "port", "as"]

def avoidCollision (i : String) : String :=
  if reservedKeywords.contains i then i ++ "_" else i

/-- elm.FieldName — simple camelcase variable name with first letter lower. -/
def FieldName (i : String) : VariableName := avoidCollision (LowerCamelCase i)

/-- elm.jsIdx — index used by generated javascript code for a field number. -/
def jsIdx (i : ProtobufFieldNumber) : Int := i - 1

/-- elm.DecoderName — decoder function name for an Elm type. -/
def DecoderName (t : ElmType) : VariableName := FirstLower (t ++ "PortDecoder")

/-- elm.EncoderName — encoder function name for an Elm type. -/
def EncoderName (t : ElmType) : VariableName := FirstLower (t ++ "PortEncoder")

/-- elm.NestedType — top level Elm type for a possibly nested PB
definition: join the preface and the camel-cased raw name with an
underscore and uppercase the first character. -/
def NestedType (name : String) (preface : List String) : ElmType :=
  FirstUpper (joinSep "_" (preface ++ [CamelCase name]))

/-- elm.NestedVariantName — Elm variant name for a possibly nested PB
definition (note: no FirstUpper in the source, and the raw name is
lowercased before camel-casing). -/
def NestedVariantName (name : String) (preface : List String) : VariantName :=
  joinSep "_" (preface ++ [CamelCase (strToLower name)])

/-- elm.EnumDefaultVariantVariableName — identifier for an enum custom
type default variant. -/
def EnumDefaultVariantVariableName (t : ElmType) : VariableName :=
  FirstLower (t ++ "Default")

/-- elm.ExternalType — handles types defined in external files: keep the
dot-separated segments that are nonempty and do not start with a
lowercase rune, uppercase their first character, join with underscores. -/
def ExternalType (inType : String) : ElmType :=
  joinSep "_" ((splitOnChar '.' inType.data).filterMap (fun g =>
    match g with
    | [] => none
    | c :: cs => if c.isLower then none else some (String.mk (c.toUpper :: cs))))

/-! ## pkg/elm: per-field classifier

The Go switch statements panic on a wire kind that reaches the default
arm (only TYPE_GROUP does); a panic is embedded as a none result. -/

def BasicFieldEncoder (inField : FieldDescriptorProto) : Option VariableName :=
  match inField.Type' with
  | .TYPE_INT32 | .TYPE_UINT32 | .TYPE_SINT32 | .TYPE_FIXED32 | .TYPE_SFIXED32 =>
    some "JE.int"
  | .TYPE_INT64 | .TYPE_UINT64 | .TYPE_SINT64 | .TYPE_FIXED64 | .TYPE_SFIXED64 =>
    some "numericStringEncoder"
  | .TYPE_FLOAT | .TYPE_DOUBLE => some "JE.float"
  | .TYPE_BOOL => some "JE.bool"
  | .TYPE_STRING => some "JE.string"
  | .TYPE_ENUM | .TYPE_MESSAGE =>
    match WellKnownTypeMap.lookup inField.TypeName with
    | some n => some n.Encoder
    | none => some (EncoderName (ExternalType inField.TypeName))
  | .TYPE_BYTES => some "bytesFieldEncoder"
  | .TYPE_GROUP => none

def BasicFieldDecoder (inField : FieldDescriptorProto) : Option VariableName :=
  match inField.Type' with
  | .TYPE_INT32 | .TYPE_INT64 | .TYPE_UINT32 | .TYPE_UINT64 | .TYPE_SINT32
  | .TYPE_SINT64 | .TYPE_FIXED32 | .TYPE_FIXED64 | .TYPE_SFIXED32 | .TYPE_SFIXED64 =>
    some "intDecoder"
  | .TYPE_FLOAT | .TYPE_DOUBLE => some "JD.float"
  | .TYPE_BOOL => some "JD.bool"
  | .TYPE_STRING => some "JD.string"
  | .TYPE_BYTES => some "bytesFieldDecoder"
  | .TYPE_ENUM | .TYPE_MESSAGE =>
    match WellKnownTypeMap.lookup inField.TypeName with
    | some n => some n.Decoder
    | none => some (DecoderName (ExternalType inField.TypeName))
  | .TYPE_GROUP => none

def BasicFieldType (inField : FieldDescriptorProto) : Option ElmType :=
  match inField.Type' with
  | .TYPE_INT32 | .TYPE_INT64 | .TYPE_UINT32 | .TYPE_UINT64 | .TYPE_SINT32
  | .TYPE_SINT64 | .TYPE_FIXED32 | .TYPE_FIXED64 | .TYPE_SFIXED32 | .TYPE_SFIXED64 =>
    some intType
  | .TYPE_FLOAT | .TYPE_DOUBLE => some floatType
  | .TYPE_BOOL => some boolType
  | .TYPE_STRING => some stringType
  | .TYPE_BYTES => some bytesType
  | .TYPE_ENUM | .TYPE_MESSAGE =>
    match WellKnownTypeMap.lookup inField.TypeName with
    | some n => some n.Type'
    | none => some (ExternalType inField.TypeName)
  | .TYPE_GROUP => none

def BasicFieldDefaultValue (inField : FieldDescriptorProto) : Option String :=
  if inField.Label = .LABEL_REPEATED then some "[]"
  else
    match inField.Type' with
    | .TYPE_INT32 | .TYPE_INT64 | .TYPE_UINT32 | .TYPE_UINT64 | .TYPE_SINT32
    | .TYPE_SINT64 | .TYPE_FIXED32 | .TYPE_FIXED64 | .TYPE_SFIXED32 | .TYPE_SFIXED64
    | .TYPE_FLOAT | .TYPE_DOUBLE => some "0"
    | .TYPE_BOOL => some "False"
    | .TYPE_STRING => some "\"\""
    | .TYPE_BYTES => some "[]"
    | .TYPE_ENUM => some (EnumDefaultVariantVariableName (ExternalType inField.TypeName))
    | .TYPE_MESSAGE => some "Nothing"
    | .TYPE_GROUP => none

/-! ## pkg/elm: composite field shapes -/

def FieldNum (pb : FieldDescriptorProto) : ProtobufFieldNumber := pb.Number

def RequiredFieldEncoder (pb : FieldDescriptorProto) : Option FieldEncoder :=
  (BasicFieldEncoder pb).map (fun e => e ++ " v." ++ FieldName pb.Name)

def RequiredFieldDecoder (pb : FieldDescriptorProto) : Option FieldDecoder :=
  (BasicFieldDecoder pb).bind (fun d =>
    (BasicFieldDefaultValue pb).map (fun dv =>
      "idxWithDefault " ++ toString (jsIdx (FieldNum pb)) ++ " " ++ d ++ " " ++ dv))

def OneOfEncoder (oneof : OneofDescriptorProto) (field : FieldDescriptorProto)
    (t : ElmType) : FieldEncoder :=
  EncoderName t ++ " " ++ toString (FieldNum field) ++ " v." ++ FieldName oneof.Name

def OneOfDecoder (_pb : OneofDescriptorProto) (t : ElmType) : FieldDecoder :=
  "custom " ++ DecoderName t

def MapType (messagePb : DescriptorProto) : Option ElmType := do
  let keyField ← messagePb.field.get? 0
  let valueField ← messagePb.field.get? 1
  let kt ← BasicFieldType keyField
  let vt ← BasicFieldType valueField
  pure ("Dict.Dict " ++ kt ++ " " ++ vt)

def MapEncoder (fieldPb : FieldDescriptorProto) (messagePb : DescriptorProto) :
    Option FieldEncoder := do
  let valueField ← messagePb.field.get? 1
  let e ← BasicFieldEncoder valueField
  pure ("mapEntriesFieldEncoder " ++ toString (FieldNum fieldPb) ++ " " ++ e
        ++ " v." ++ FieldName fieldPb.Name)

def MapDecoder (fieldPb : FieldDescriptorProto) (messagePb : DescriptorProto) :
    Option FieldDecoder := do
  let valueField ← messagePb.field.get? 1
  let d ← BasicFieldDecoder valueField
  pure ("mapEntries " ++ toString (FieldNum fieldPb) ++ " " ++ d)

def MaybeType (t : ElmType) : ElmType := "Maybe " ++ t

def MaybeEncoder (pb : FieldDescriptorProto) : Option FieldEncoder :=
  (BasicFieldEncoder pb).map (fun e => "maybeEncoder " ++ e ++ " v." ++ FieldName pb.Name)

def MaybeDecoder (pb : FieldDescriptorProto) : Option FieldDecoder :=
  (BasicFieldDecoder pb).map (fun d =>
    "idxWithDefault " ++ toString (jsIdx (FieldNum pb)) ++ " (JD.maybe " ++ d ++ ") Nothing")

def ListType (t : ElmType) : ElmType := "List " ++ t

def ListEncoder (pb : FieldDescriptorProto) : Option FieldEncoder :=
  (BasicFieldEncoder pb).map (fun e => "JE.list " ++ e ++ " v." ++ FieldName pb.Name)

def ListDecoder (pb : FieldDescriptorProto) : Option FieldDecoder :=
  (BasicFieldDecoder pb).map (fun d =>
    "idxWithDefault " ++ toString (jsIdx (FieldNum pb)) ++ " (JD.list " ++ d ++ ") []")

/-- elm.OneOfType — the type of a oneof field (identity on the resolved
nested type). -/
def OneOfType (t : ElmType) : ElmType := t

/-! ## pkg/elm: model node types -/

structure TypeAliasField where
  Name : VariableName
  Type' : ElmType
  -- the field type is ProtobufFieldNumber in the source; it is spelled out
  -- as Int here so arithmetic automation sees through it
  Number : Int
  Default : String
  Decoder : FieldDecoder
  Encoder : FieldEncoder
deriving DecidableEq

structure TypeAlias where
  Name : ElmType
  Decoder : VariableName
  Encoder : VariableName
  FieldEncoders : List TypeAliasField
  Fields : List TypeAliasField
deriving DecidableEq

structure EnumVariant where
  Name : VariantName
  Value : ProtobufFieldNumber
deriving DecidableEq

structure EnumCustomType where
  Name : ElmType
  Decoder : VariableName
  Encoder : VariableName
  DefaultVariantVariable : VariableName
  DefaultVariantValue : VariantName
  Variants : List EnumVariant
deriving DecidableEq

structure OneOfVariant where
  Name : VariantName
  Type' : ElmType
  Num : ProtobufFieldNumber
  Decoder : VariableName
  Encoder : VariableName
deriving DecidableEq

structure OneOfCustomType where
  Name : ElmType
  Decoder : VariableName
  Encoder : VariableName
  Variants : List OneOfVariant
deriving DecidableEq

/-! ## cmd/protoc-gen-elm/main.go: the descriptor walker -/

/-- The recognized configuration options of parseParameters (the Go field
modPrefix is spelled modPfx here because of a lint on identifier
endings). -/
structure parameters where
  Version : Bool
  Debug : Bool
  RemoveDeprecated : Bool
  modPfx : String
deriving DecidableEq

/-- isDeprecated on *descriptorpb.FieldOptions: non-nil options with a
non-nil Deprecated pointer set to true. -/
def isDeprecatedFieldOptions (o : Option FieldOptions) : Bool :=
  match o with
  | some v => v.Deprecated.getD false
  | none => false

/-- isDeprecated on *descriptorpb.MessageOptions. -/
def isDeprecatedMessageOptions (o : Option MessageOptions) : Bool :=
  match o with
  | some v => v.Deprecated.getD false
  | none => false

/-- isDeprecated on *descriptorpb.EnumOptions. -/
def isDeprecatedEnumOptions (o : Option EnumOptions) : Bool :=
  match o with
  | some v => v.Deprecated.getD false
  | none => false

/-- isDeprecated on *descriptorpb.EnumValueOptions. -/
def isDeprecatedEnumValueOptions (o : Option EnumValueOptions) : Bool :=
  match o with
  | some v => v.Deprecated.getD false
  | none => false

/-- fieldDefault — the default-value expression of a singular non-oneof
field.  NOTE the Go source slices defV[:1] in the TYPE_BOOL arm before
checking for emptiness, so a bool field whose schema supplies no explicit
default panics (slice bounds out of range); that panic is the none result
here. -/
def fieldDefault (field : FieldDescriptorProto) : Option String := do
  let defV := field.DefaultValue
  let defV ←
    match field.Type' with
    | .TYPE_STRING =>
      some ("\"" ++ String.mk (replaceChar '"' ['\\', '"'] defV.data) ++ "\"")
    | .TYPE_BOOL =>
      -- strings.ToUpper(defV[:1]) + defV[1:] — panics when defV is empty
      match defV.data with
      | [] => none
      | c :: cs => some (String.mk (c.toUpper :: cs))
    | _ => some defV
  if defV = "" then BasicFieldDefaultValue field else some defV

def isOptional (inField : FieldDescriptorProto) : Bool :=
  inField.Label = .LABEL_OPTIONAL && inField.Type' = .TYPE_MESSAGE

def isRepeated (inField : FieldDescriptorProto) : Bool :=
  inField.Label = .LABEL_REPEATED

/-- getLocalType — last dot-separated segment of a fully qualified name. -/
def getLocalType (fullyQualifiedTypeName : String) : String :=
  (((splitOnChar '.' fullyQualifiedTypeName.data).map String.mk).getLast?).getD ""

/-- getNestedType — the synthetic map-entry message backing a map field,
when there is one. -/
def getNestedType (inField : FieldDescriptorProto) (inMessage : DescriptorProto) :
    Option DescriptorProto :=
  inMessage.nestedType.find? (fun nested =>
    nested.name == getLocalType inField.TypeName && getMapEntry nested.options)

/-- The value-building loop of enumsToCustomTypes: skip deprecated values
when filtering, turn the rest into variants. -/
def enumValuesLoop (preface : List String) (p : parameters) :
    List EnumValueDescriptorProto → List EnumVariant
  | [] => []
  | v :: rest =>
    if isDeprecatedEnumValueOptions v.Options && p.RemoveDeprecated then
      enumValuesLoop preface p rest
    else
      ⟨NestedVariantName v.Name preface, v.Number⟩ :: enumValuesLoop preface p rest

/-- enumsToCustomTypes.  The Go code reads values[0].Name without a guard:
when every variant of a processed enum is filtered out (or none were
declared) the index is out of range and the program panics — the none
result. -/
def enumsToCustomTypes (preface : List String) :
    List EnumDescriptorProto → parameters → Option (List EnumCustomType)
  | [], _ => some []
  | enumPb :: rest, p =>
    if isDeprecatedEnumOptions enumPb.Options && p.RemoveDeprecated then
      enumsToCustomTypes preface rest p
    else
      let values := enumValuesLoop preface p enumPb.Value
      match values with
      | [] => none
      | v0 :: _ =>
        let enumType := NestedType enumPb.Name preface
        (enumsToCustomTypes preface rest p).map (fun tail =>
          ⟨enumType, DecoderName enumType, EncoderName enumType,
           EnumDefaultVariantVariableName enumType, v0.Name, values⟩ :: tail)

/-- The variant-collecting loop of oneOfsToCustomTypes for one oneof
index. -/
def oneOfVariantsLoop (preface : List String) (p : parameters) (oneofIndex : Int) :
    List FieldDescriptorProto → Option (List OneOfVariant)
  | [] => some []
  | inField :: rest =>
    if isDeprecatedFieldOptions inField.Options && p.RemoveDeprecated then
      oneOfVariantsLoop preface p oneofIndex rest
    else
      match inField.OneofIndex with
      | none => oneOfVariantsLoop preface p oneofIndex rest
      | some k =>
        if k != oneofIndex then oneOfVariantsLoop preface p oneofIndex rest
        else do
          let t ← BasicFieldType inField
          let d ← BasicFieldDecoder inField
          let e ← BasicFieldEncoder inField
          let tail ← oneOfVariantsLoop preface p oneofIndex rest
          pure (⟨NestedVariantName inField.Name preface, t, FieldNum inField, d, e⟩ :: tail)

/-- The outer loop of oneOfsToCustomTypes over the oneof declarations,
carrying the running oneof index. -/
def oneOfsLoop (preface : List String) (messagePb : DescriptorProto) (p : parameters)
    (i : Int) : List OneofDescriptorProto → Option (List OneOfCustomType)
  | [] => some []
  | oneOfPb :: rest => do
    let variants ← oneOfVariantsLoop preface p i messagePb.field
    let tail ← oneOfsLoop preface messagePb p (i + 1) rest
    let name := NestedType oneOfPb.Name preface
    pure (⟨name, DecoderName name, EncoderName name, variants⟩ :: tail)

/-- oneOfsToCustomTypes. -/
def oneOfsToCustomTypes (preface : List String) (messagePb : DescriptorProto)
    (p : parameters) : Option (List OneOfCustomType) :=
  if isDeprecatedMessageOptions messagePb.options && p.RemoveDeprecated then some []
  else oneOfsLoop preface messagePb p 0 messagePb.oneofDecl

/-- One iteration of the field loop of messages, classifying a single
(non-filtered) field.  The returned Bool says whether the entry also
joins the decode-side field list (alias.Fields): every branch of the Go
loop appends its entry to alias.FieldEncoders, and all but the
oneof-member branch append the same entry to alias.Fields, so that
shared shape is factored here. -/
def fieldEntry (_p : parameters) (messagePb : DescriptorProto) (nestedPreface : List String)
    (fieldPb : FieldDescriptorProto) : Option (Bool × TypeAliasField) :=
  match fieldPb.OneofIndex with
  | some k => do
    -- messagePb.GetOneofDecl()[fieldPb.GetOneofIndex()] — an index out of
    -- range panics (none)
    let oneof ← if k < 0 then none else messagePb.oneofDecl.get? k.toNat
    let typeName := OneOfType (NestedType oneof.Name nestedPreface)
    pure (false, ⟨FieldName oneof.Name, typeName, FieldNum fieldPb, "", "",
                  OneOfEncoder oneof fieldPb typeName⟩)
  | none =>
    match getNestedType fieldPb messagePb with
    | some nested => do
      let t ← MapType nested
      let e ← MapEncoder fieldPb nested
      let d ← MapDecoder fieldPb nested
      pure (true, ⟨FieldName fieldPb.Name, t, FieldNum fieldPb, "Nothing", d, e⟩)
    | none =>
      if isOptional fieldPb then do
        let t ← BasicFieldType fieldPb
        let dv ← fieldDefault fieldPb
        let e ← MaybeEncoder fieldPb
        let d ← MaybeDecoder fieldPb
        pure (true, ⟨FieldName fieldPb.Name, MaybeType t, FieldNum fieldPb, dv, d, e⟩)
      else if isRepeated fieldPb then do
        let t ← BasicFieldType fieldPb
        let e ← ListEncoder fieldPb
        let d ← ListDecoder fieldPb
        pure (true, ⟨FieldName fieldPb.Name, ListType t, FieldNum fieldPb, "[]", d, e⟩)
      else do
        let t ← BasicFieldType fieldPb
        let dv ← fieldDefault fieldPb
        let e ← RequiredFieldEncoder fieldPb
        let d ← RequiredFieldDecoder fieldPb
        pure (true, ⟨FieldName fieldPb.Name, t, FieldNum fieldPb, dv, d, e⟩)

/-- The per-field loop of messages, producing the decode-side field list
(alias.Fields, first component) and the encode-side list before sorting
(alias.FieldEncoders, second component).  A oneof member contributes one
entry per variant field to the encoder list and none to the field list;
other shapes contribute one entry to each. -/
def fieldLoop (p : parameters) (messagePb : DescriptorProto) (nestedPreface : List String) :
    List FieldDescriptorProto → Option (List TypeAliasField × List TypeAliasField)
  | [] => some ([], [])
  | fieldPb :: rest =>
    if isDeprecatedFieldOptions fieldPb.Options && p.RemoveDeprecated then
      fieldLoop p messagePb nestedPreface rest
    else
      match fieldEntry p messagePb nestedPreface fieldPb with
      | none => none
      | some (keepDecode, field) =>
        match fieldLoop p messagePb nestedPreface rest with
        | none => none
        | some (fs, es) =>
          some (if keepDecode then field :: fs else fs, field :: es)

/-- Insertion step for the encoder sort. -/
def insertByNumber (x : TypeAliasField) : List TypeAliasField → List TypeAliasField
  | [] => [x]
  | y :: ys => if x.Number < y.Number then x :: y :: ys else y :: insertByNumber x ys

/-- sort.Slice(alias.FieldEncoders, by Number ascending).  sort.Slice is
unstable, but on duplicate-free field numbers every comparator-consistent
sort produces the same list, so insertion sort is a faithful embedding for
the inputs the walker sees. -/
def sortFieldEncoders : List TypeAliasField → List TypeAliasField
  | [] => []
  | x :: xs => insertByNumber x (sortFieldEncoders xs)

/-- The decode-side field appended for one oneof declaration after the
field loop (Number, Encoder stay at their Go zero values). -/
def oneofAliasField (nestedPreface : List String) (oneOfPb : OneofDescriptorProto) :
    TypeAliasField :=
  let typeName := OneOfType (NestedType oneOfPb.Name nestedPreface)
  ⟨FieldName oneOfPb.Name, typeName, 0, typeName ++ "Unspecified",
   OneOfDecoder oneOfPb typeName, ""⟩

/-- The TypeAlias assembled by one iteration of messages for one message
descriptor: run the field loop, sort the encode-side list by field
number, then append one decode-side field per oneof declaration. -/
def buildAlias (preface : List String) (p : parameters) (messagePb : DescriptorProto) :
    Option TypeAlias := do
  let name := NestedType messagePb.name preface
  let nestedPreface := messagePb.name :: preface
  let (fs, es) ← fieldLoop p messagePb nestedPreface messagePb.field
  let fields := messagePb.oneofDecl.foldl
    (fun acc oneOfPb => acc ++ [oneofAliasField nestedPreface oneOfPb]) fs
  pure ⟨name, DecoderName name, EncoderName name, sortFieldEncoders es, fields⟩

inductive pbMessage where
  | mk (TypeAlias' : TypeAlias) (OneOfCustomTypes : List OneOfCustomType)
       (EnumCustomTypes : List EnumCustomType) (NestedMessages : List pbMessage)

def pbMessage.typeAlias : pbMessage → TypeAlias
  | .mk t _ _ _ => t

def pbMessage.oneOfCustomTypes : pbMessage → List OneOfCustomType
  | .mk _ o _ _ => o

def pbMessage.enumCustomTypes : pbMessage → List EnumCustomType
  | .mk _ _ e _ => e

def pbMessage.nestedMessages : pbMessage → List pbMessage
  | .mk _ _ _ n => n

/-- messages — the recursive descriptor walker.  The nesting preface grows
by PREPENDING the current message name (Go:
append([]string{messagePb.GetName()}, preface...)). -/
def messages (preface : List String) : List DescriptorProto → parameters → Option (List pbMessage)
  | [], _ => some []
  | .mk mName mField mNested mEnum mOneof mOptions :: rest, p =>
    let messagePb := DescriptorProto.mk mName mField mNested mEnum mOneof mOptions
    if isDeprecatedMessageOptions mOptions && p.RemoveDeprecated then
      messages preface rest p
    else
      let nestedPreface := mName :: preface
      (buildAlias preface p messagePb).bind fun ta =>
      (oneOfsToCustomTypes nestedPreface messagePb p).bind fun oneofs =>
      (enumsToCustomTypes nestedPreface mEnum p).bind fun enums =>
      (messages nestedPreface mNested p).bind fun nested =>
      (messages preface rest p).map fun tail =>
        pbMessage.mk ta oneofs enums nested :: tail

/-! ## The encode plan of the type-alias template

The encoder body of TypeAliasTemplate walks alias.FieldEncoders with a
running index starting at 1 and, before each encoder call, emits one
JE.null placeholder for every position returned by fieldSeq, then the
encoder call itself, then sets the index to the field number plus one. -/

/-- The fieldSeq template helper of templateFile: the integers from
from up to but excluding to. -/
def fieldSeq (start : Int) (toNum : ProtobufFieldNumber) : List Int :=
  (List.range (toNum - start).toNat).map (fun (i : Nat) => start + (i : Int))

/-- nextFieldNum template helper. -/
def nextFieldNum (n : ProtobufFieldNumber) : Int := n + 1

/-- toJSIdx template helper. -/
def toJSIdx (n : ProtobufFieldNumber) : Int := n - 1

/-- One expression of the encode-side plan: a JE.null placeholder or a
field encoder call. -/
inductive EncodeSlot where
  | null : EncodeSlot
  | enc : FieldEncoder → EncodeSlot
deriving DecidableEq

/-- The template loop over the (already sorted) FieldEncoders list with
running index idx. -/
def encoderPlanAux (idx : Int) : List TypeAliasField → List EncodeSlot
  | [] => []
  | v :: vs =>
    (fieldSeq idx v.Number).map (fun _ => EncodeSlot.null)
      ++ EncodeSlot.enc v.Encoder :: encoderPlanAux (nextFieldNum v.Number) vs

/-- The full encode-side plan of a message (the template starts its index
at 1). -/
def encoderPlan (fields : List TypeAliasField) : List EncodeSlot :=
  encoderPlanAux 1 fields

/-- The wire field number of the last entry of the sorted encoder list
(0 when there are no fields). -/
def lastFieldNumber (fields : List TypeAliasField) : Int :=
  ((fields.getLast?).map (fun v => v.Number)).getD 0

/-! ## A small semantics for the generated JSON decoders and encoders

The generated Elm code is text; to state claims about its behaviour the
relevant combinators (JD.oneOf, JD.index, JD.null, JD.map, JD.succeed,
JD.fail, JD.andThen and the failOnNull helper emitted verbatim by
templateFile) are given their standard semantics over a JSON value tree. -/

inductive JValue where
  | null : JValue
  | num : Int → JValue
  | str : String → JValue
  | boolean : Bool → JValue
  | arr : List JValue → JValue

/-- Decoders take the JSON value to a result, none being failure. -/
abbrev JDecoder (α : Type) := JValue → Option α

def jdSucceed (a : α) : JDecoder α := fun _ => some a

def jdFail : JDecoder α := fun _ => none

def jdMap (f : α → β) (d : JDecoder α) : JDecoder β := fun v => (d v).map f

def jdAndThen (d : JDecoder α) (f : α → JDecoder β) : JDecoder β :=
  fun v => (d v).bind (fun a => f a v)

/-- JD.oneOf: the first succeeding alternative wins. -/
def jdOneOf : List (JDecoder α) → JDecoder α
  | [] => fun _ => none
  | d :: ds => fun v =>
    match d v with
    | some a => some a
    | none => jdOneOf ds v

/-- JD.index: decode inside element i of an array value. -/
def jdIndex (i : Nat) (d : JDecoder α) : JDecoder α := fun v =>
  match v with
  | .arr elems =>
    match elems.get? i with
    | some x => d x
    | none => none
  | _ => none

/-- JD.null: succeed with the given value exactly on a JSON null. -/
def jdNull (a : α) : JDecoder α := fun v =>
  match v with
  | .null => some a
  | _ => none

/-- The Field helper type emitted by templateFile (type Field a = Null |
Present a). -/
inductive FieldBox (α : Type) where
  | Null : FieldBox α
  | Present : α → FieldBox α

/-- failOnNull, transcribed from the helper emitted by templateFile:
decode null to Null or the value to Present, then fail on Null. -/
def failOnNull (d : JDecoder α) : JDecoder α :=
  jdAndThen (jdOneOf [jdNull FieldBox.Null, jdMap FieldBox.Present d])
    (fun v =>
      match v with
      | .Null => jdFail
      | .Present fv => jdSucceed fv)

/-! ## The generated oneof custom type (OneOfCustomTypeTemplate)

The decoder alternatives are, in order, one JD.index alternative per
variant (at position toJSIdx Num, wrapped in failOnNull) and a terminal
JD.succeed of the Unspecified variant.  The encoder cases on the active
variant and emits the variant encoder only when the requested index is
the active variant number, JE.null otherwise. -/

/-- A decoded oneof value: the synthetic unspecified variant or a named
variant carrying its payload. -/
inductive OneOfValue (α : Type) where
  | unspecified : OneOfValue α
  | variant : VariantName → α → OneOfValue α
deriving DecidableEq

/-- Semantic data of one generated oneof variant: its name, its wire
number and the semantics of its value decoder. -/
structure OneOfVariantSem (α : Type) where
  name : VariantName
  num : ProtobufFieldNumber
  dec : JDecoder α

/-- The decoder generated by OneOfCustomTypeTemplate. -/
def oneofDecoderSem (variants : List (OneOfVariantSem α)) : JDecoder (OneOfValue α) :=
  jdOneOf ((variants.map (fun v =>
      jdMap (OneOfValue.variant v.name) (jdIndex (toJSIdx v.num).toNat (failOnNull v.dec))))
    ++ [jdSucceed OneOfValue.unspecified])

/-- Semantic data of one generated oneof variant on the encode side: its
wire number and the semantics of its value encoder. -/
structure OneOfVariantEncSem (α : Type) where
  num : ProtobufFieldNumber
  enc : α → JValue

/-- An active oneof choice on the encode side: unspecified, or the i-th
declared variant with its payload. -/
inductive OneOfChoice (α : Type) where
  | unspecified : OneOfChoice α
  | chosen : Nat → α → OneOfChoice α

/-- The encoder generated by OneOfCustomTypeTemplate: one case per
variant, each emitting its value only when the requested index equals the
variant wire number and JE.null otherwise; the Unspecified case emits
JE.null. -/
def oneofEncoderSem (variants : List (OneOfVariantEncSem α)) (idx : Int) :
    OneOfChoice α → JValue
  | .unspecified => .null
  | .chosen i x =>
    match variants.get? i with
    | some v => if idx == v.num then v.enc x else .null
    | none => .null

/-- Decimal digit accumulator used by the modelled numeric-string parse. -/
def parseNatAux (acc : Nat) : List Char → Option Nat
  | [] => some acc
  | c :: cs => if c.isDigit then parseNatAux (10 * acc + (c.toNat - 48)) cs else none

/-- Parse an optionally signed decimal integer from a character list. -/
def parseIntChars : List Char → Option Int
  | [] => none
  | '-' :: cs =>
    match cs with
    | [] => none
    | _ => (parseNatAux 0 cs).map (fun n => -(n : Int))
  | cs => (parseNatAux 0 cs).map (fun n => (n : Int))

/-- Modelled from the spec: the runtime intDecoder of the companion elm
package (not under src/) — the decode half assigned to every integer
kind, which "tolerates the value arriving as a numeric-string": accept a
JSON number, or a JSON string holding a number. -/
def intDecoderSem : JDecoder Int := fun v =>
  match v with
  | .num n => some n
  | .str s => parseIntChars s.data
  | _ => none

/-! ## cmd/protoc-gen-elm/main.go: per-file model and the main loop

templateFile renders text; the model it passes to the template (module
name, import list, top-level enums, messages) is embedded as FileModel.
The excludedFiles map is a Go package-level variable, but it is written
only by parseParameters before any file is processed, so it enters the
embedding as an explicit argument. -/

structure FileDescriptorProto where
  Name : String
  Dependency : List String
  MessageType : List DescriptorProto
  EnumType : List EnumDescriptorProto

mutual

def hasMapEntriesInMessage : DescriptorProto → Bool
  | .mk _ _ mNested _ _ mOptions =>
    getMapEntry mOptions || hasMapEntriesInList mNested

def hasMapEntriesInList : List DescriptorProto → Bool
  | [] => false
  | m :: rest => hasMapEntriesInMessage m || hasMapEntriesInList rest

end

def hasMapEntries (inFile : FileDescriptorProto) : Bool :=
  hasMapEntriesInList inFile.MessageType

/-- moduleName — module path from the file path and the module-prefix
option (filepath.Split is embedded as splitting on the slash, the Go
separator on the target platform). -/
def moduleName (modPfx inFilePath : String) : String :=
  let segs := (splitOnChar '/' inFilePath.data).map String.mk
  let inFileName := (segs.getLast?).getD ""
  let dirSegs := segs.dropLast
  let shortModuleName := FirstUpper (trimSuffix inFileName ".proto")
  let path := if modPfx != "" then (splitOnChar '.' modPfx.data).map String.mk ++ dirSegs
              else dirSegs
  let final := (path.filter (fun s => s != "")).map FirstUpper
  joinSep "." (final ++ [shortModuleName])

/-- additionalImports — import paths for the non-excluded dependencies.
Note the Go code does not filter empty module-prefix segments here. -/
def additionalImports (excl : List String) (modPfx : String)
    (dependencies : List String) : List String :=
  let pfxSegs := (splitOnChar '.' modPfx.data).map String.mk
  (dependencies.filter (fun d => !excl.contains d)).map (fun d =>
    let segs := ((splitOnChar '/' (trimSuffix d ".proto").data).map String.mk).filter
      (fun s => s != "")
    joinSep "." (pfxSegs ++ segs.map FirstUpper))

/-- The data templateFile passes to the rendering template for one file. -/
structure FileModel where
  SourceFile : String
  ModuleName : String
  ImportDict : Bool
  AdditionalImports : List String
  TopEnums : List EnumCustomType
  Messages : List pbMessage

/-- The model-construction part of templateFile for one schema file; a
none is the log.Fatalf abort of main on a templating error. -/
def fileModel (excl : List String) (p : parameters) (f : FileDescriptorProto) :
    Option FileModel :=
  (enumsToCustomTypes [] f.EnumType p).bind fun tops =>
  (messages [] f.MessageType p).map fun msgs =>
    ⟨f.Name, moduleName p.modPfx f.Name, hasMapEntries f,
     additionalImports excl p.modPfx f.Dependency, tops, msgs⟩

/-- The per-file loop of main: skip excluded files, build each remaining
file model, abort the whole batch on the first failure. -/
def processBatch (excl : List String) (p : parameters) :
    List FileDescriptorProto → Option (List FileModel)
  | [] => some []
  | f :: rest =>
    if excl.contains f.Name then processBatch excl p rest
    else
      match fileModel excl p f with
      | none => none
      | some m => (processBatch excl p rest).map (fun ms => m :: ms)

/-- Walk a pbMessage tree along a path of nested-message indexes and
return the resolved type alias name at the end. -/
def digName (m : pbMessage) : List Nat → Option String
  | [] => some m.typeAlias.Name
  | i :: rest =>
    match m.nestedMessages.get? i with
    | some n => digName n rest
    | none => none

/-! ## Concrete inputs used by witnesses and counterexamples -/

/-- Default configuration: no option was passed. -/
def p0 : parameters := ⟨false, false, false, ""⟩

/-- Configuration with remove-deprecated enabled. -/
def pRD : parameters := ⟨false, false, true, ""⟩

/-- A oneof member field (string variant, wire number 1). -/
def oneofF1 : FieldDescriptorProto := ⟨"a", 1, .LABEL_OPTIONAL, .TYPE_STRING, "", "", some 0, none⟩

/-- A oneof member field (int32 variant, wire number 2). -/
def oneofF2 : FieldDescriptorProto := ⟨"b", 2, .LABEL_OPTIONAL, .TYPE_INT32, "", "", some 0, none⟩

/-- A message whose only two fields are the variants of a single oneof. -/
def oneofMsg : DescriptorProto := .mk "M" [oneofF1, oneofF2] [] [] [⟨"choice"⟩] none

/-- A message with a single required group-typed field (the one wire kind
the classifier has no arm for). -/
def groupMsg : DescriptorProto :=
  .mk "G" [⟨"g", 1, .LABEL_REQUIRED, .TYPE_GROUP, "", "", none, none⟩] [] [] [] none

/-- An enum whose first declared variant is deprecated. -/
def depEnum : EnumDescriptorProto :=
  ⟨"E", [⟨"A", 0, some ⟨some true⟩⟩, ⟨"B", 1, none⟩], none⟩

/-- A three-level nesting chain: message C inside B inside A. -/
def chainABC : DescriptorProto :=
  .mk "A" [] [.mk "B" [] [.mk "C" [] [] [] [] none] [] [] none] [] [] none

/-- A required int64 field. -/
def sampleInt64Field : FieldDescriptorProto :=
  ⟨"x", 1, .LABEL_REQUIRED, .TYPE_INT64, "", "", none, none⟩

/-- A required int32 field. -/
def sampleInt32Field : FieldDescriptorProto :=
  ⟨"x", 1, .LABEL_REQUIRED, .TYPE_INT32, "", "", none, none⟩

/-- The fields of the encoder-plan examples: wire numbers 1, 3, 5. -/
def fields135 : List TypeAliasField :=
  [⟨"a", "Int", 1, "0", "d1", "e1"⟩, ⟨"b", "Int", 3, "0", "d3", "e3"⟩,
   ⟨"c", "Int", 5, "0", "d5", "e5"⟩]

/-- A single encoder entry at wire number 4. -/
def fields4 : List TypeAliasField := [⟨"a", "Int", 4, "0", "d4", "e4"⟩]

/-- The 64-bit integer wire kinds. -/
def int64Kinds : List FieldDescriptorProto_Type :=
  [.TYPE_INT64, .TYPE_UINT64, .TYPE_SINT64, .TYPE_FIXED64, .TYPE_SFIXED64]

/-- The 32-bit integer wire kinds. -/
def int32Kinds : List FieldDescriptorProto_Type :=
  [.TYPE_INT32, .TYPE_UINT32, .TYPE_SINT32, .TYPE_FIXED32, .TYPE_SFIXED32]

/-- The surviving variants of an enum under a configuration: those not
dropped by deprecated-element filtering. -/
def survivingEnumValues (p : parameters) (e : EnumDescriptorProto) :
    List EnumValueDescriptorProto :=
  e.Value.filter (fun v => !(isDeprecatedEnumValueOptions v.Options && p.RemoveDeprecated))

/-- A field survives the walker under a configuration when it is not
dropped by deprecated-element filtering. -/
def fieldSurvives (p : parameters) (f : FieldDescriptorProto) : Bool :=
  !(isDeprecatedFieldOptions f.Options && p.RemoveDeprecated)

/-- The ASCII letters, for the bounded uppercase-start check. -/
def asciiLetters : List Char :=
  "abcdefghijklmnopqrstuvwxyzABCDEFGHIJKLMNOPQRSTUVWXYZ".data

/-! ## Supporting lemmas -/

lemma enumValuesLoop_eq (preface : List String) (p : parameters)
    (vs : List EnumValueDescriptorProto) :
    enumValuesLoop preface p vs
      = (vs.filter (fun v => !(isDeprecatedEnumValueOptions v.Options && p.RemoveDeprecated))).map
          (fun v => ⟨NestedVariantName v.Name preface, v.Number⟩) := by
  induction vs with
  | nil => rfl
  | cons v rest ih =>
    cases hc : (isDeprecatedEnumValueOptions v.Options && p.RemoveDeprecated)
    all_goals simp only [enumValuesLoop, List.filter_cons, hc, Bool.not_true, Bool.not_false,
      List.map_cons, ih]
    all_goals simp

/-! ## Claim C5 -/

/-- Claim C5 counterexample: with remove-deprecated enabled and a
deprecated first variant, the designated default of enum E is the
resolved name of B, the first surviving variant, not of A, the first
declared one — so DefaultVariantValue does not equal the first declared
variant under every configuration. -/
theorem enum_default_first_declared_cex :
    (enumsToCustomTypes [] [depEnum] pRD).map (List.map (fun c => c.DefaultVariantValue))
      = some ["B"]
    ∧ NestedVariantName "A" [] = "A"
    ∧ ("B" : VariantName) ≠ "A" :=
  ⟨by decide, by decide, by decide⟩

/-- Claim C5 (amended): for every enum processed under any configuration,
DefaultVariantValue is the resolved name of the first variant SURVIVING
deprecated-element filtering; when filtering is disabled the surviving
variants are exactly the declared ones, so this coincides with the first
declared variant. -/
theorem enum_default_first_surviving (preface : List String) (e : EnumDescriptorProto)
    (p : parameters) (v0 : EnumValueDescriptorProto) (vs : List EnumValueDescriptorProto)
    (hskip : (isDeprecatedEnumOptions e.Options && p.RemoveDeprecated) = false)
    (hsurv : survivingEnumValues p e = v0 :: vs) :
    (enumsToCustomTypes preface [e] p).map (List.map (fun c => c.DefaultVariantValue))
      = some [NestedVariantName v0.Name preface]
    ∧ (p.RemoveDeprecated = false → survivingEnumValues p e = e.Value) := by
  constructor
  · have hv : enumValuesLoop preface p e.Value
        = (v0 :: vs).map (fun v => (⟨NestedVariantName v.Name preface, v.Number⟩ : EnumVariant)) := by
      rw [enumValuesLoop_eq]
      have : e.Value.filter
          (fun v => !(isDeprecatedEnumValueOptions v.Options && p.RemoveDeprecated)) = v0 :: vs :=
        hsurv
      rw [this]
    simp [enumsToCustomTypes, hskip, hv]
  · intro h
    simp [survivingEnumValues, h]

/-- Claim C5 witness: the amended statement applied to the deprecated
first-variant enum under remove-deprecated. -/
theorem enum_default_first_surviving_witness :
    (enumsToCustomTypes [] [depEnum] pRD).map (List.map (fun c => c.DefaultVariantValue))
      = some [NestedVariantName "B" []] :=
  (enum_default_first_surviving [] depEnum pRD ⟨"B", 1, none⟩ [] (by decide) (by decide)).1

/-! ## Claim C6 -/

/-- Claim C6: default-value resolution for required fields.  The casing
of an explicit bool default is normalized to False, an explicit string
default is quote-escaped, and an int32 with no explicit default resolves
to literal zero — but a required bool field with NO explicit schema
default does not fall back to False: the Go source slices the empty
default string (defV[:1]) before its emptiness check and panics, embedded
here as the none result. -/
theorem bool_default_fallback_code_bug :
    fieldDefault ⟨"x", 1, .LABEL_REQUIRED, .TYPE_BOOL, "", "", none, none⟩ = none
    ∧ fieldDefault ⟨"x", 1, .LABEL_REQUIRED, .TYPE_BOOL, "", "false", none, none⟩ = some "False"
    ∧ fieldDefault ⟨"x", 1, .LABEL_REQUIRED, .TYPE_STRING, "", "He said \"hi\"", none, none⟩
        = some "\"He said \\\"hi\\\"\""
    ∧ fieldDefault ⟨"x", 1, .LABEL_REQUIRED, .TYPE_INT32, "", "", none, none⟩ = some "0"
    ∧ BasicFieldDefaultValue ⟨"x", 1, .LABEL_REQUIRED, .TYPE_BOOL, "", "", none, none⟩
        = some "False" :=
  ⟨by decide, by decide, by decide, by decide, by decide⟩

/-! ## Claim C7 -/

/-- Claim C7: type, encoder and decoder classification fail exactly on
the one wire kind outside the supported enumeration (TYPE_GROUP), and
such a failure is the Go panic that aborts the whole invocation — shown
on a whole message: building the alias of a message with a group field
aborts (none) rather than skipping the field. -/
theorem unsupported_kind_aborts (f : FieldDescriptorProto) :
    ((BasicFieldType f).isNone ↔ f.Type' = .TYPE_GROUP)
    ∧ ((BasicFieldEncoder f).isNone ↔ f.Type' = .TYPE_GROUP)
    ∧ ((BasicFieldDecoder f).isNone ↔ f.Type' = .TYPE_GROUP)
    ∧ buildAlias [] p0 groupMsg = none := by
  obtain ⟨nm, num, lb, t, tn, dv, oi, op⟩ := f
  refine ⟨?_, ?_, ?_, by decide⟩ <;>
    cases t <;>
      simp [BasicFieldType, BasicFieldEncoder, BasicFieldDecoder] <;>
        (cases WellKnownTypeMap.lookup tn <;> simp)

/-! ## Claim C8 -/

/-- Claim C8 counterexample: the classifier assigns the very same decoder
name, intDecoder, to 32-bit integer kinds as to 64-bit ones, and that
decoder tolerates a numeric string — so 32-bit kinds do not get a direct
numeric codec pair distinct from the string-tolerant 64-bit one on the
decode side. -/
theorem int32_direct_decoder_cex :
    BasicFieldDecoder sampleInt32Field = some "intDecoder"
    ∧ BasicFieldDecoder sampleInt64Field = some "intDecoder"
    ∧ intDecoderSem (.str "7") = some 7 :=
  ⟨by decide, by decide, by decide⟩

/-- Claim C8 (amended): every 64-bit integer kind gets the
numericStringEncoder / intDecoder pair, every 32-bit integer kind gets
the direct JE.int encoder but shares the same string-tolerant intDecoder,
and both groups map to the Int type; intDecoder accepts both a JSON
number and a numeric string. -/
theorem integer_kind_codecs (f : FieldDescriptorProto) :
    (f.Type' ∈ int64Kinds →
      BasicFieldEncoder f = some "numericStringEncoder"
      ∧ BasicFieldDecoder f = some "intDecoder"
      ∧ BasicFieldType f = some intType)
    ∧ (f.Type' ∈ int32Kinds →
      BasicFieldEncoder f = some "JE.int"
      ∧ BasicFieldDecoder f = some "intDecoder"
      ∧ BasicFieldType f = some intType)
    ∧ intDecoderSem (.num 7) = some 7
    ∧ intDecoderSem (.str "7") = some 7 := by
  obtain ⟨nm, num, lb, t, tn, dv, oi, op⟩ := f
  refine ⟨?_, ?_, by decide, by decide⟩ <;>
    cases t <;>
      simp [int64Kinds, int32Kinds, BasicFieldEncoder, BasicFieldDecoder, BasicFieldType,
        intType]

/-- Claim C8 witness: the amended statement applied to concrete int64 and
int32 fields. -/
theorem integer_kind_codecs_witness :
    BasicFieldEncoder sampleInt64Field = some "numericStringEncoder"
    ∧ BasicFieldEncoder sampleInt32Field = some "JE.int" := by
  have h64 := (integer_kind_codecs sampleInt64Field).1 (by decide)
  have h32 := (integer_kind_codecs sampleInt32Field).2.1 (by decide)
  exact ⟨h64.1, h32.1⟩

/-! ## Claim C9 -/

/-- Claim C9: the batch loop of main is a pure fold — its result is the
filter of the non-excluded files mapped through the per-file model
function, so each file model is a function of that file, the parameter
set and the exclusion set alone, independent of any other file in the
batch and of processing order, and re-running yields the identical
models. -/
theorem model_construction_pure (excl : List String) (p : parameters)
    (files : List FileDescriptorProto) :
    processBatch excl p files
      = (files.filter (fun f => !excl.contains f.Name)).mapM (fileModel excl p) := by
  rw [← List.mapM'_eq_mapM]
  induction files with
  | nil => rfl
  | cons f rest ih =>
    cases hc : excl.contains f.Name with
    | true =>
      simp only [processBatch, List.filter_cons, hc, Bool.not_true, ih]
      simp
    | false =>
      simp only [processBatch, List.filter_cons, hc, Bool.not_false, List.mapM'_cons]
      cases hm : fileModel excl p f
      · simp [hm]
      · simp [hm, ih, Option.map_eq_bind]

/-! ## Claim C10 -/

/-- Claim C10 counterexample: an enum that declares no variants but is
itself deprecated is skipped when deprecated-element filtering is
enabled, so conversion returns an (empty) model list instead of
crashing — the claim quantifier over enums that declare no variants is
too broad. -/
theorem empty_deprecated_enum_skipped_cex :
    enumsToCustomTypes [] [⟨"E", [], some ⟨some true⟩⟩] pRD = some []
    ∧ (some [] : Option (List EnumCustomType)) ≠ none :=
  ⟨by decide, by decide⟩

/-- Claim C10 (amended): for every enum that is actually processed (not
skipped as a deprecated enum under filtering) and that declares no
variants, or whose variants are all marked deprecated while filtering is
enabled, conversion crashes on the out-of-range values[0] access —
embedded as the none result, which no caller turns into a clean error. -/
theorem enum_crash_without_surviving_variants (preface : List String)
    (e : EnumDescriptorProto) (p : parameters)
    (hskip : (isDeprecatedEnumOptions e.Options && p.RemoveDeprecated) = false)
    (h : e.Value = []
      ∨ (p.RemoveDeprecated = true
         ∧ ∀ v ∈ e.Value, isDeprecatedEnumValueOptions v.Options = true)) :
    enumsToCustomTypes preface [e] p = none := by
  have hempty : enumValuesLoop preface p e.Value = [] := by
    rw [enumValuesLoop_eq]
    rcases h with h | ⟨hrd, hall⟩
    · simp [h]
    · have hfil : e.Value.filter
          (fun v => !(isDeprecatedEnumValueOptions v.Options && p.RemoveDeprecated)) = [] := by
        rw [List.filter_eq_nil_iff]
        intro v hv
        simp [hall v hv, hrd]
      rw [hfil]
      rfl
  simp [enumsToCustomTypes, hskip, hempty]

/-- Claim C10 witness: the amended statement applied to a non-deprecated
enum with no declared variants. -/
theorem enum_crash_without_surviving_variants_witness :
    enumsToCustomTypes [] [⟨"E", [], none⟩] p0 = none :=
  enum_crash_without_surviving_variants [] ⟨"E", [], none⟩ p0 (by decide) (Or.inl rfl)

/-! ## Supporting lemmas for the field loop and the encoder sort -/

lemma length_insertByNumber (x : TypeAliasField) (l : List TypeAliasField) :
    (insertByNumber x l).length = l.length + 1 := by
  induction l with
  | nil => rfl
  | cons y ys ih =>
    simp only [insertByNumber]
    split
    · simp
    · simp [ih]

lemma length_sortFieldEncoders (l : List TypeAliasField) :
    (sortFieldEncoders l).length = l.length := by
  induction l with
  | nil => rfl
  | cons x xs ih => simp [sortFieldEncoders, length_insertByNumber, ih]

lemma mem_insertByNumber (x y : TypeAliasField) (l : List TypeAliasField) :
    y ∈ insertByNumber x l ↔ y = x ∨ y ∈ l := by
  induction l with
  | nil => simp [insertByNumber]
  | cons z zs ih =>
    simp only [insertByNumber]
    split
    · simp [List.mem_cons]
    · simp [List.mem_cons, ih]
      tauto

lemma mem_sortFieldEncoders (y : TypeAliasField) (l : List TypeAliasField) :
    y ∈ sortFieldEncoders l ↔ y ∈ l := by
  induction l with
  | nil => simp [sortFieldEncoders]
  | cons x xs ih => simp [sortFieldEncoders, mem_insertByNumber, ih, List.mem_cons]

lemma fieldLoop_encoders_length (p : parameters) (m : DescriptorProto) (pre : List String) :
    ∀ (fields : List FieldDescriptorProto) (fs es : List TypeAliasField),
    fieldLoop p m pre fields = some (fs, es) →
    es.length = (fields.filter (fieldSurvives p)).length := by
  intro fields
  induction fields with
  | nil =>
    intro fs es h
    simp [fieldLoop] at h
    simp [h.2.symm]
  | cons f rest ih =>
    intro fs es h
    rw [List.filter_cons]
    simp only [fieldLoop] at h
    cases hd : (isDeprecatedFieldOptions f.Options && p.RemoveDeprecated) with
    | true =>
      rw [hd] at h
      have hs : fieldSurvives p f = false := by simp [fieldSurvives, hd]
      rw [hs]
      simp only [if_true, Bool.false_eq_true, if_false] at h ⊢
      exact ih fs es h
    | false =>
      rw [hd] at h
      have hs : fieldSurvives p f = true := by simp [fieldSurvives, hd]
      rw [hs]
      simp only [Bool.false_eq_true, if_false, if_true] at h ⊢
      cases he : fieldEntry p m pre f with
      | none => rw [he] at h; simp at h
      | some pr =>
        obtain ⟨keep, field⟩ := pr
        rw [he] at h
        cases hrest : fieldLoop p m pre rest with
        | none => rw [hrest] at h; simp at h
        | some pr2 =>
          obtain ⟨fs1, es1⟩ := pr2
          rw [hrest] at h
          simp only [Option.some.injEq, Prod.mk.injEq] at h
          obtain ⟨h1, h2⟩ := h
          rw [← h2]
          simp [ih fs1 es1 hrest]

/-- Every surviving field whose OneofIndex points at the oneof with
declaration oneof produces exactly this encoder entry. -/
def oneofEncoderEntry (pre : List String) (oneof : OneofDescriptorProto)
    (f : FieldDescriptorProto) : TypeAliasField :=
  ⟨FieldName oneof.Name, OneOfType (NestedType oneof.Name pre), FieldNum f, "", "",
   OneOfEncoder oneof f (OneOfType (NestedType oneof.Name pre))⟩

lemma fieldEntry_oneof (p : parameters) (m : DescriptorProto) (pre : List String)
    (f : FieldDescriptorProto) (k : Int) (oneof : OneofDescriptorProto)
    (hk : f.OneofIndex = some k) (hk0 : 0 ≤ k)
    (ho : m.oneofDecl.get? k.toNat = some oneof) :
    fieldEntry p m pre f = some (false, oneofEncoderEntry pre oneof f) := by
  have hneg : ¬(k < 0) := by omega
  have ho2 : m.oneofDecl[k.toNat]? = some oneof := by
    rw [← List.get?_eq_getElem?]; exact ho
  simp [fieldEntry, hk, hneg, ho2, oneofEncoderEntry]

lemma fieldLoop_oneof_entry_mem (p : parameters) (m : DescriptorProto) (pre : List String) :
    ∀ (fields : List FieldDescriptorProto) (fs es : List TypeAliasField)
      (f : FieldDescriptorProto) (k : Int) (oneof : OneofDescriptorProto),
    fieldLoop p m pre fields = some (fs, es) →
    f ∈ fields → fieldSurvives p f = true →
    f.OneofIndex = some k → 0 ≤ k → m.oneofDecl.get? k.toNat = some oneof →
    oneofEncoderEntry pre oneof f ∈ es := by
  intro fields
  induction fields with
  | nil => intro fs es f k oneof _ hmem; cases hmem
  | cons g rest ih =>
    intro fs es f k oneof h hmem hsurv hk hk0 ho
    simp only [fieldLoop] at h
    cases hd : (isDeprecatedFieldOptions g.Options && p.RemoveDeprecated) with
    | true =>
      rw [hd] at h
      simp only [if_true] at h
      rcases List.mem_cons.mp hmem with rfl | hmem2
      · rw [fieldSurvives, hd] at hsurv
        cases hsurv
      · exact ih fs es f k oneof h hmem2 hsurv hk hk0 ho
    | false =>
      rw [hd] at h
      simp only [Bool.false_eq_true, if_false] at h
      cases he : fieldEntry p m pre g with
      | none => rw [he] at h; simp at h
      | some pr =>
        obtain ⟨keep, field⟩ := pr
        rw [he] at h
        cases hrest : fieldLoop p m pre rest with
        | none => rw [hrest] at h; simp at h
        | some pr2 =>
          obtain ⟨fs1, es1⟩ := pr2
          rw [hrest] at h
          simp only [Option.some.injEq, Prod.mk.injEq] at h
          obtain ⟨h1, h2⟩ := h
          rw [← h2]
          rcases List.mem_cons.mp hmem with rfl | hmem2
          · have := fieldEntry_oneof p m pre f k oneof hk hk0 ho
            rw [this] at he
            obtain ⟨rfl, rfl⟩ : false = keep ∧ oneofEncoderEntry pre oneof f = field := by
              have h3 := he
              simp only [Option.some.injEq, Prod.mk.injEq] at h3
              exact h3
            exact List.mem_cons_self _ _
          · exact List.mem_cons_of_mem _ (ih fs1 es1 f k oneof hrest hmem2 hsurv hk hk0 ho)

lemma foldl_append_singleton (g : OneofDescriptorProto → TypeAliasField) :
    ∀ (l : List OneofDescriptorProto) (init : List TypeAliasField),
    l.foldl (fun acc o => acc ++ [g o]) init = init ++ l.map g := by
  intro l
  induction l with
  | nil => intro init; simp
  | cons o rest ih => intro init; simp [List.foldl_cons, ih]

lemma jdOneOf_append_of_fail (v : JValue) :
    ∀ (ds : List (JDecoder α)) (d : JDecoder α),
    (∀ g ∈ ds, g v = none) → jdOneOf (ds ++ [d]) v = d v := by
  intro ds
  induction ds with
  | nil =>
    intro d _
    cases hdv : d v <;> simp [jdOneOf, hdv]
  | cons g rest ih =>
    intro d h
    have hg : g v = none := h g (List.mem_cons_self _ _)
    simp only [List.cons_append, jdOneOf, hg]
    exact ih d (fun g2 hg2 => h g2 (List.mem_cons_of_mem _ hg2))

/-! ## Claim C3 -/

/-- Claim C3 counterexample: a message whose only content is one oneof
with two variant fields gets TWO entries in the encode-ordered field
list (alias.FieldEncoders), one per variant, not one slot for the whole
oneof. -/
theorem oneof_single_encode_slot_cex :
    (buildAlias [] p0 oneofMsg).map (fun a => a.FieldEncoders.length) = some 2
    ∧ oneofMsg.oneofDecl.length = 1
    ∧ (2 : Nat) ≠ 1 :=
  ⟨by decide, by decide, by decide⟩

/-- Claim C3 (amended): the encode-ordered field list carries one encode
slot per SURVIVING variant field of a oneof (its length equals the
number of surviving fields of the message, oneof members included), each
slot being the whole-oneof encoder applied at that variant's wire
number; the per-variant discrimination happens inside the generated
oneof encoder, which emits the variant value only when the requested
index equals the active variant's number and a null placeholder
otherwise. -/
theorem oneof_per_variant_encode_slots :
    (∀ (preface : List String) (p : parameters) (m : DescriptorProto) (a : TypeAlias),
      buildAlias preface p m = some a →
      a.FieldEncoders.length = (m.field.filter (fieldSurvives p)).length
      ∧ (∀ f ∈ m.field, fieldSurvives p f = true →
          ∀ (k : Int) (oneof : OneofDescriptorProto), f.OneofIndex = some k → 0 ≤ k →
          m.oneofDecl.get? k.toNat = some oneof →
          oneofEncoderEntry (m.name :: preface) oneof f ∈ a.FieldEncoders))
    ∧ (∀ (variants : List (OneOfVariantEncSem Int)) (i : Nat) (v : OneOfVariantEncSem Int)
        (idx : Int) (x : Int), variants.get? i = some v →
        oneofEncoderSem variants idx (.chosen i x)
          = (if idx == v.num then v.enc x else .null))
    ∧ (∀ (variants : List (OneOfVariantEncSem Int)) (idx : Int),
        oneofEncoderSem variants idx .unspecified = .null) := by
  refine ⟨?_, ?_, ?_⟩
  · intro preface p m a h
    rw [buildAlias] at h
    cases hfl : fieldLoop p m (m.name :: preface) m.field with
    | none => rw [hfl] at h; simp at h
    | some pr =>
      obtain ⟨fs, es⟩ := pr
      rw [hfl] at h
      replace h := Option.some.inj h
      subst h
      constructor
      · simp only [length_sortFieldEncoders]
        exact fieldLoop_encoders_length p m (m.name :: preface) m.field fs es hfl
      · intro f hmem hsurv k oneof hk hk0 ho
        simp only [mem_sortFieldEncoders]
        exact fieldLoop_oneof_entry_mem p m (m.name :: preface) m.field fs es f k oneof
          hfl hmem hsurv hk hk0 ho
  · intro variants i v idx x hv
    have hv2 : variants[i]? = some v := by rw [← List.get?_eq_getElem?]; exact hv
    simp [oneofEncoderSem, hv2]
  · intro variants idx
    rfl

/-- Claim C3 witness: the amended statement applied to the two-variant
oneof message. -/
theorem oneof_per_variant_encode_slots_witness :
    ∃ a, buildAlias [] p0 oneofMsg = some a
      ∧ a.FieldEncoders.length = 2
      ∧ oneofEncoderEntry ["M"] ⟨"choice"⟩ oneofF1 ∈ a.FieldEncoders := by
  cases hb : buildAlias [] p0 oneofMsg with
  | none => exact absurd hb (by decide)
  | some a =>
    have h := (oneof_per_variant_encode_slots.1 [] p0 oneofMsg a hb)
    refine ⟨a, rfl, ?_, ?_⟩
    · rw [h.1]; decide
    · exact h.2 oneofF1 (by decide) (by decide) 0 ⟨"choice"⟩ (by decide) (by decide) (by decide)

/-! ## Claim C4 -/

/-- Claim C4: after the field loop, the walker appends exactly one
decode-side field per oneof declaration, whose type is the resolved
oneof type name and whose default is that name suffixed Unspecified
(oneofAliasField); and the generated oneof decoder, whose alternative
list ends in an unconditionally succeeding Unspecified alternative,
decodes an empty array or a null wire value to the unspecified variant
instead of failing. -/
theorem oneof_decode_single_field_and_default :
    (∀ (preface : List String) (p : parameters) (m : DescriptorProto),
      (buildAlias preface p m).isSome →
      (buildAlias preface p m).map (fun a => a.Fields)
        = (fieldLoop p m (m.name :: preface) m.field).map
            (fun pr => pr.1 ++ m.oneofDecl.map (oneofAliasField (m.name :: preface))))
    ∧ (∀ (pre : List String) (o : OneofDescriptorProto),
        (oneofAliasField pre o).Type' = OneOfType (NestedType o.Name pre)
        ∧ (oneofAliasField pre o).Default = OneOfType (NestedType o.Name pre) ++ "Unspecified"
        ∧ (oneofAliasField pre o).Decoder = OneOfDecoder o (OneOfType (NestedType o.Name pre)))
    ∧ (∀ (α : Type) (variants : List (OneOfVariantSem α)),
        oneofDecoderSem variants (.arr []) = some .unspecified
        ∧ oneofDecoderSem variants .null = some .unspecified) := by
  refine ⟨?_, fun pre o => ⟨rfl, rfl, rfl⟩, ?_⟩
  · intro preface p m hsome
    cases hfl : fieldLoop p m (m.name :: preface) m.field with
    | none =>
      rw [buildAlias, hfl] at hsome
      simp at hsome
    | some pr =>
      obtain ⟨fs, es⟩ := pr
      rw [buildAlias, hfl]
      simp only [Option.some_bind, Option.pure_def, Option.map_some']
      simp [foldl_append_singleton]
  · intro α variants
    constructor
    · rw [oneofDecoderSem]
      rw [jdOneOf_append_of_fail _ _ _ ?_]
      · rfl
      · intro g hg
        obtain ⟨v, _, rfl⟩ := List.mem_map.mp hg
        simp [jdMap, jdIndex]
    · rw [oneofDecoderSem]
      rw [jdOneOf_append_of_fail _ _ _ ?_]
      · rfl
      · intro g hg
        obtain ⟨v, _, rfl⟩ := List.mem_map.mp hg
        simp [jdMap, jdIndex]

/-- Claim C4 witness: the structural part applied to the two-variant
oneof message, and the resulting single decode-side field with the
Unspecified default evaluated concretely. -/
theorem oneof_decode_single_field_and_default_witness :
    (buildAlias [] p0 oneofMsg).map (fun a => a.Fields)
      = (fieldLoop p0 oneofMsg (oneofMsg.name :: []) oneofMsg.field).map
          (fun pr => pr.1 ++ oneofMsg.oneofDecl.map (oneofAliasField (oneofMsg.name :: [])))
    ∧ (buildAlias [] p0 oneofMsg).map (fun a => a.Fields.map (fun f => f.Default))
      = some ["M_ChoiceUnspecified"] :=
  ⟨oneof_decode_single_field_and_default.1 [] p0 oneofMsg (by decide), by decide⟩

/-! ## Claim C2 -/

/-- A straight-line nesting chain of otherwise empty messages: the listed
ancestors from outermost to innermost, around the final inner message. -/
def nestedChain : List String → String → DescriptorProto
  | [], inner => .mk inner [] [] [] [] none
  | a :: rest, inner => .mk a [] [nestedChain rest inner] [] [] none

lemma messages_chain_name (p : parameters) (inner : String) :
    ∀ (ancestors preface : List String),
    (messages preface [nestedChain ancestors inner] p).bind (fun l =>
      (l.get? 0).bind (fun m => digName m (List.replicate ancestors.length 0)))
      = some (FirstUpper (joinSep "_" (ancestors.reverse ++ preface ++ [CamelCase inner]))) := by
  intro ancestors
  induction ancestors with
  | nil =>
    intro preface
    simp [nestedChain, messages, buildAlias, fieldLoop, oneOfsToCustomTypes, oneOfsLoop,
      enumsToCustomTypes, isDeprecatedMessageOptions, sortFieldEncoders, digName, NestedType,
      DescriptorProto.name, DescriptorProto.oneofDecl, pbMessage.typeAlias]
  | cons a rest ih =>
    intro preface
    cases hrec : messages (a :: preface) [nestedChain rest inner] p with
    | none =>
      have hih := ih (a :: preface)
      rw [hrec] at hih
      simp at hih
    | some lst =>
      have hih := ih (a :: preface)
      rw [hrec] at hih
      simp only [Option.some_bind, List.get?_eq_getElem?] at hih
      simp only [nestedChain, messages, isDeprecatedMessageOptions, Bool.false_and,
        Bool.false_eq_true, if_false, hrec]
      simp [buildAlias, fieldLoop, oneOfsToCustomTypes, oneOfsLoop, enumsToCustomTypes,
        isDeprecatedMessageOptions, digName, List.replicate_succ, DescriptorProto.name,
        DescriptorProto.oneofDecl, pbMessage.nestedMessages, pbMessage.typeAlias]
      cases h0 : lst[0]? with
      | none =>
        rw [h0] at hih
        simp at hih
      | some n =>
        rw [h0] at hih
        simpa using hih

/-- Claim C2 counterexample: for message C nested in B nested in A the
walker resolves the name B_A_C — the immediate parent's segment comes
first — not A_B_C as outer-to-inner ancestor order would give. -/
theorem nested_type_name_order_cex :
    (messages [] [chainABC] p0).bind (fun l => (l.get? 0).bind (fun m => digName m [0, 0]))
      = some "B_A_C"
    ∧ FirstUpper (joinSep "_" (["A", "B"] ++ [CamelCase "C"])) = "A_B_C"
    ∧ ("B_A_C" : String) ≠ "A_B_C" := by
  refine ⟨?_, by decide, by decide⟩
  simp [messages, chainABC, p0]
  decide

/-- Claim C2 (amended): for every straight-line nesting chain, the
resolved type name joins the nesting path in INNER-TO-OUTER ancestor
order (most deeply nested ancestor first, because the walker prepends
each message name to the preface) followed by the camel-cased raw name,
with the fixed underscore separator, and the first character is
uppercased (an uppercase letter whenever the leading character is an
ASCII letter, checked over the whole alphabet). -/
theorem nested_type_name_inner_to_outer (p : parameters) (inner : String)
    (ancestors : List String) :
    (messages [] [nestedChain ancestors inner] p).bind (fun l =>
      (l.get? 0).bind (fun m => digName m (List.replicate ancestors.length 0)))
      = some (FirstUpper (joinSep "_" (ancestors.reverse ++ [CamelCase inner])))
    ∧ (asciiLetters.all (fun c =>
        ((FirstUpper (String.mk [c])).data.map Char.isUpper) == [true])) = true := by
  constructor
  · have h := messages_chain_name p inner ancestors []
    simpa using h
  · decide

/-! ## Claim C1 -/

/-- The slot the claim expects at a wire position: the encoder call of
the field with that number when there is one, a null placeholder
otherwise. -/
def planSlot (fields : List TypeAliasField) (target : Int) : EncodeSlot :=
  match fields.find? (fun v => v.Number == target) with
  | some v => EncodeSlot.enc v.Encoder
  | none => EncodeSlot.null

/-- The length of the plan emitted from running index idx over the
remaining sorted encoder entries. -/
def planLen (idx : Int) : List TypeAliasField → Nat
  | [] => 0
  | v :: vs => (v.Number - idx).toNat + 1 + planLen (v.Number + 1) vs

lemma encoderPlanAux_eq_range :
    ∀ (fields : List TypeAliasField) (idx : Int),
    fields.Pairwise (fun a b => a.Number < b.Number) →
    (∀ v ∈ fields, idx ≤ v.Number) →
    encoderPlanAux idx fields
      = (List.range (planLen idx fields)).map (fun (i : Nat) => planSlot fields (idx + (i : Int))) := by
  intro fields
  induction fields with
  | nil => intro idx _ _; simp [encoderPlanAux, planLen]
  | cons v vs ih =>
    intro idx hpw hge
    have hvidx : idx ≤ v.Number := hge v (List.mem_cons_self v vs)
    have hvlt : ∀ w ∈ vs, v.Number < w.Number := (List.pairwise_cons.mp hpw).1
    have hpw2 := (List.pairwise_cons.mp hpw).2
    have hge2 : ∀ w ∈ vs, v.Number + 1 ≤ w.Number := fun w hw => by
      have := hvlt w hw; omega
    have hkv : v.Number = idx + ((v.Number - idx).toNat : Int) := by omega
    simp only [encoderPlanAux, nextFieldNum, planLen]
    rw [ih (v.Number + 1) hpw2 hge2]
    rw [List.range_add, List.range_succ]
    rw [List.map_append, List.map_append, List.map_map]
    have part1 : (List.range (v.Number - idx).toNat).map
        (fun (i : Nat) => planSlot (v :: vs) (idx + (i : Int)))
        = (fieldSeq idx v.Number).map (fun _ => EncodeSlot.null) := by
      rw [List.map_const']
      rw [List.eq_replicate_iff]
      refine ⟨by simp [fieldSeq], ?_⟩
      intro b hb
      obtain ⟨i, hi, rfl⟩ := List.mem_map.mp hb
      have hik : i < (v.Number - idx).toNat := List.mem_range.mp hi
      rw [planSlot]
      rw [List.find?_eq_none.mpr ?_]
      intro w hw
      simp only [beq_iff_eq]
      rcases List.mem_cons.mp hw with rfl | hw2
      · omega
      · have := hvlt w hw2; omega
    have part2 : planSlot (v :: vs) (idx + ((v.Number - idx).toNat : Int))
        = EncodeSlot.enc v.Encoder := by
      rw [planSlot, List.find?_cons_of_pos]
      simp only [beq_iff_eq]
      omega
    have part3 : ∀ j ∈ List.range (planLen (v.Number + 1) vs),
        planSlot (v :: vs) (idx + (((v.Number - idx).toNat + 1 + j : Nat) : Int))
          = planSlot vs (v.Number + 1 + (j : Int)) := by
      intro j _
      rw [planSlot, planSlot, List.find?_cons_of_neg]
      · rw [show idx + (((v.Number - idx).toNat + 1 + j : Nat) : Int)
              = v.Number + 1 + (j : Int) from by push_cast; omega]
      · simp only [beq_iff_eq]
        omega
    have part3' : (List.range (planLen (v.Number + 1) vs)).map
        ((fun (i : Nat) => planSlot (v :: vs) (idx + (i : Int)))
          ∘ (fun x => (v.Number - idx).toNat + 1 + x))
        = (List.range (planLen (v.Number + 1) vs)).map
            (fun (i : Nat) => planSlot vs (v.Number + 1 + (i : Int))) := by
      apply List.map_congr_left
      intro j hj
      simpa using part3 j hj
    simp only [List.map_cons, List.map_nil]
    rw [part1, part3', part2]
    simp [List.append_assoc]

lemma planLen_eq_last :
    ∀ (fields : List TypeAliasField) (idx : Int),
    fields.Pairwise (fun a b => a.Number < b.Number) →
    (∀ v ∈ fields, idx ≤ v.Number) →
    planLen idx fields
      = (((fields.getLast?.map (fun v => v.Number)).getD (idx - 1)) + 1 - idx).toNat := by
  intro fields
  induction fields with
  | nil => intro idx _ _; simp [planLen]
  | cons v vs ih =>
    intro idx hpw hge
    have hvidx : idx ≤ v.Number := hge v (List.mem_cons_self v vs)
    have hvlt : ∀ w ∈ vs, v.Number < w.Number := (List.pairwise_cons.mp hpw).1
    have hpw2 := (List.pairwise_cons.mp hpw).2
    cases vs with
    | nil => simp [planLen]; omega
    | cons w ws =>
      have hne : (w :: ws) ≠ [] := by simp
      simp only [planLen] at ih ⊢
      rw [ih (v.Number + 1) hpw2 (fun x hx => by have := hvlt x hx; omega)]
      rw [List.getLast?_cons_cons]
      have hlast : (w :: ws).getLast? = some ((w :: ws).getLast hne) :=
        List.getLast?_eq_getLast _ hne
      rw [hlast]
      have hmem : (w :: ws).getLast hne ∈ w :: ws := List.getLast_mem hne
      have hlt := hvlt _ hmem
      simp only [Option.map_some', Option.getD_some]
      omega

/-- Claim C1: for a message whose sorted encoder entries carry distinct
wire numbers all at least 1, the encode-side plan emitted by the
type-alias template is exactly one slot per position from 1 up to the
last (maximal) field number, with the field encoder call at each
position that is a field number and a null placeholder at every other
position — so every gap below and between field numbers is filled and
there are no trailing positions past the last field. -/
theorem encode_plan_gap_alignment (fields : List TypeAliasField)
    (hsorted : fields.Pairwise (fun a b => a.Number < b.Number))
    (hpos : ∀ v ∈ fields, 1 ≤ v.Number) :
    encoderPlan fields
      = (List.range (lastFieldNumber fields).toNat).map
          (fun (i : Nat) => planSlot fields (1 + (i : Int))) := by
  rw [encoderPlan, encoderPlanAux_eq_range fields 1 hsorted hpos,
    planLen_eq_last fields 1 hsorted hpos]
  rw [show ((1 : Int) - 1) = 0 from rfl]
  rw [lastFieldNumber]
  rw [show ∀ (L : Int), L + 1 - 1 = L from fun L => by omega]

/-- Claim C1 witness: the plan for fields at wire numbers 1, 3, 5 has
length 5 with placeholders at positions 2 and 4, and the plan for a
single field at wire number 4 has length 4 with placeholders at
positions 1 to 3. -/
theorem encode_plan_gap_alignment_witness :
    encoderPlan fields135 = [.enc "e1", .null, .enc "e3", .null, .enc "e5"]
    ∧ encoderPlan fields4 = [.null, .null, .null, .enc "e4"] := by
  constructor
  · rw [encode_plan_gap_alignment fields135 (by decide) (by decide)]
    decide
  · rw [encode_plan_gap_alignment fields4 (by decide) (by decide)]
    decide

end ElmProtobuf
